import Mathlib

/-!
Verification development for the MachinePro equipment-valuation pipeline.

The definitions below are shallow embeddings of the Python source:
  - `src/app/agents/valuator.py`       (offline valuation path, `acall`, lines 68-80)
  - `src/app/agents/rag_retriever.py`  (text normalization, price / date / brand
    extraction, sale-record construction, recency filtering, outlier removal)

Modelling conventions:
  - Python floats are modelled as exact rationals (`Rat`); every money amount
    appearing in the claims is small enough that the two agree.
  - Python `datetime` values are modelled at day granularity as integers
    (days since an arbitrary epoch); `None`/unparseable dates are `Option.none`.
  - Python regular-expression scans are modelled by explicit maximal-munch
    matchers; fuel arguments equal to the scanned list's length make the
    recursion structural (one character is consumed per step).
-/

/-! ### Valuator (src/app/agents/valuator.py, dummy/offline path of acall) -/

/-- A comparable sale as consumed by the valuator: the dummy path only reads
the `price` field of each comp dict (`c.get("price", 0)`). -/
structure Comp where
  price : Rat
deriving DecidableEq

/-- The dict returned by `valuator.acall` in dummy mode. -/
structure ValOut where
  fmv : Rat
  confidence : String
  adjAge : Rat
  adjUsage : Rat
  adjCondition : Rat
  top3 : List Comp
  explanation : String
deriving DecidableEq

/-- Python `round` at 0 decimals: round-half-to-even (banker's rounding). -/
def pyRoundHalfEven (x : Rat) : Int :=
  let f := ⌊x⌋
  let frac := x - (f : Rat)
  if frac > 1/2 then f + 1
  else if frac < 1/2 then f
  else if f % 2 = 0 then f else f + 1

/-- Python `round(x, 2)`. -/
def round2 (x : Rat) : Rat := (pyRoundHalfEven (x * 100) : Rat) / 100

/-- Embedding of `valuator.acall`, `USE_DUMMY` branch (valuator.py lines 68-80):
`prices = [c.get("price", 0) for c in comps]`,
`fmv = round(mean(prices), 2) if prices else 0.0`,
`conf = "high" if len >= 5 else "medium" if len >= 3 else "low"`,
then the literal result dict. -/
def dummyValuation (comps : List Comp) : ValOut :=
  let prices := comps.map (fun c => c.price)
  let fmv := if prices.isEmpty then 0 else round2 (prices.sum / (prices.length : Rat))
  let conf := if prices.length ≥ 5 then "high"
              else if prices.length ≥ 3 then "medium" else "low"
  { fmv := fmv
    confidence := conf
    adjAge := 0
    adjUsage := 0
    adjCondition := 0
    top3 := comps.take 3
    explanation := "Dummy valuation using sample data" }

/-- Confidence label exactly as the claim C2 words it (spec 4.6 step 8):
`high` iff sample size ≥ 25 and sample standard deviation / sample mean < 0.12
(encoded squared: 625·variance < 9·mean², valid for positive mean),
else `medium` iff size ≥ 10, else `low`.  Spec-side definition, for
comparison against `dummyValuation`. -/
def specConfidenceLabel (prices : List Rat) : String :=
  let n := prices.length
  let m := prices.sum / (n : Rat)
  let ssq := (prices.map (fun p => (p - m) ^ 2)).sum
  let sampleVar := ssq / ((n : Rat) - 1)
  if 25 ≤ n ∧ 625 * sampleVar < 9 * m ^ 2 then "high"
  else if 10 ≤ n then "medium" else "low"

/-! ### Sale records, recency filter, outlier removal
(src/app/agents/rag_retriever.py, search_with_rag lines 282-368) -/

/-- The fields of a sale record that the filtering stages read: its price and
its sale date.  `saleDate = none` models a `sale_date` string on which
`datetime.strptime(..., "%Y-%m-%d")` raises. -/
structure SaleRec where
  price : Rat
  saleDate : Option Int
deriving DecidableEq

/-- Embedding of `recent_90_day_results` (rag_retriever.py lines 315-325): records whose
date parses and is ≥ now − 90 days. -/
def recent90 (now : Int) (rs : List SaleRec) : List SaleRec :=
  rs.filter fun r =>
    match r.saleDate with
    | some d => decide (now - 90 ≤ d)
    | none => false

/-- Embedding of `recent_180_day_results` (rag_retriever.py lines 315-328): records whose
date parses into [now − 180, now − 90), plus records whose date fails to
parse (the `except` branch appends them to this bucket). -/
def recent180 (now : Int) (rs : List SaleRec) : List SaleRec :=
  rs.filter fun r =>
    match r.saleDate with
    | some d => decide (now - 180 ≤ d) && decide (d < now - 90)
    | none => true

/-- The recency selection of `search_with_rag` (lines 330-344):
if fewer than 3 records are within 90 days, extend with the 90-180-day
bucket; if the chosen list still has fewer than 3 records, fall back to the
full unfiltered list. -/
def recencyFilter (now : Int) (rs : List SaleRec) : List SaleRec :=
  let recent :=
    if (recent90 now rs).length < 3 then recent90 now rs ++ recent180 now rs
    else recent90 now rs
  if recent.length < 3 then rs else recent

/-- Embedding of `np.percentile(xs, q)` with the default linear interpolation:
sort, set `pos = q·(n−1)/100`, and interpolate between the two neighbouring
order statistics. -/
def percentileLin (xs : List Rat) (q : Rat) : Rat :=
  let s := List.insertionSort (· ≤ ·) xs
  let n := xs.length
  let pos : Rat := q * ((n : Rat) - 1) / 100
  let i : Nat := pos.floor.toNat
  let a := s.getD i 0
  let b := s.getD (i + 1) a
  a + (pos - (i : Rat)) * (b - a)

/-- The IQR filter of `search_with_rag` (lines 349-358): keep the records
whose price lies in [Q1 − 1.5·IQR, Q3 + 1.5·IQR]. -/
def iqrFiltered (rs : List SaleRec) : List SaleRec :=
  let prices := rs.map (fun r => r.price)
  let q1 := percentileLin prices 25
  let q3 := percentileLin prices 75
  let iqr := q3 - q1
  let lowerBound := q1 - 3/2 * iqr
  let upperBound := q3 + 3/2 * iqr
  rs.filter fun r => decide (lowerBound ≤ r.price) && decide (r.price ≤ upperBound)

/-- The outlier-removal step of `search_with_rag` (lines 347-368): only for
samples of at least 5; uses the filtered list only when something was
removed and at least 3 records survive. -/
def removeOutliers (rs : List SaleRec) : List SaleRec :=
  if 5 ≤ rs.length then
    let filteredResults := iqrFiltered rs
    let removedCount := rs.length - filteredResults.length
    if 0 < removedCount then
      if 3 ≤ filteredResults.length then filteredResults else rs
    else rs
  else rs

/-- Sale-record construction from one passage's extracted prices
(`search_with_rag` lines 282-304): `avg_price = mean(all_prices)` (0.0 when
the list is empty) and the passage is skipped when `avg_price < 1000`. -/
def buildRecord (prices : List Rat) (saleDate : Option Int) : Option SaleRec :=
  let avgPrice : Rat := if prices.isEmpty then 0 else prices.sum / (prices.length : Rat)
  if avgPrice < 1000 then none else some { price := avgPrice, saleDate := saleDate }

/-! ### Text normalization (rag_retriever.py, clean_and_normalize_text, lines 36-42) -/

/-- Python's `\s` character class (ASCII part, which is all the passages use). -/
def isPySpace (c : Char) : Bool :=
  c = ' ' || c = '\t' || c = '\n' || c = '\r' || c = '\x0b' || c = '\x0c'

/-- ASCII digit test on the character code, `\d`. -/
def isDigitB (c : Char) : Bool := 48 ≤ c.toNat && c.toNat ≤ 57

/-- A character of `[\d,]`. -/
def isPriceChar (c : Char) : Bool := isDigitB c || c = ','

/-- Embedding of `re.sub(r'\s+', ' ', text)`: each maximal whitespace run becomes a single
space.  The flag records whether the previous character was whitespace. -/
def collapseWsAux : Bool → List Char → List Char
  | _, [] => []
  | prevSpace, c :: cs =>
    if isPySpace c then
      if prevSpace then collapseWsAux true cs
      else ' ' :: collapseWsAux true cs
    else c :: collapseWsAux false cs

/-- Trailing-whitespace removal, via the reversed list. -/
def stripBack (cs : List Char) : List Char :=
  ((cs.reverse).dropWhile isPySpace).reverse

/-- Python `str.strip()`: drop leading and trailing whitespace. -/
def stripChars (cs : List Char) : List Char :=
  stripBack (cs.dropWhile isPySpace)

/-- The body of one match of `\$\s*(\d+),(\d+)` after the `'$'`:
optional whitespace, a maximal nonempty digit run, a comma, a second maximal
nonempty digit run.  Returns the two captured digit runs concatenated (the
replacement is `$\1\2`) and the remainder of the input. -/
def matchDollarBody (cs : List Char) : Option (List Char × List Char) :=
  let afterWs := cs.dropWhile isPySpace
  let d1 := afterWs.takeWhile isDigitB
  let r1 := afterWs.dropWhile isDigitB
  if d1.isEmpty then none
  else
    match r1 with
    | ',' :: r2 =>
      let d2 := r2.takeWhile isDigitB
      if d2.isEmpty then none
      else some (d1 ++ d2, r2.dropWhile isDigitB)
    | _ => none

/-- Embedding of `re.sub(r'\$\s*(\d+),(\d+)', r'$\1\2', text)`: left-to-right
non-overlapping replacement.  The fuel starts at the list length; each step
consumes at least one character, so it never runs out. -/
def dollarSubFuel : Nat → List Char → List Char
  | 0, cs => cs
  | _ + 1, [] => []
  | fuel + 1, c :: cs =>
    if c = '$' then
      match matchDollarBody cs with
      | some (ds, rest) => '$' :: ds ++ dollarSubFuel fuel rest
      | none => c :: dollarSubFuel fuel cs
    else c :: dollarSubFuel fuel cs

/-- The dollar-amount rewrite pass of `clean_and_normalize_text`. -/
def dollarSub (cs : List Char) : List Char := dollarSubFuel cs.length cs

/-- Embedding of `clean_and_normalize_text` (rag_retriever.py lines 36-42): collapse
whitespace runs, trim, then rewrite `$d,d` amounts to `$dd`. -/
def clean_and_normalize_text (s : String) : String :=
  String.mk (dollarSub (stripChars (collapseWsAux false s.data)))

/-! ### Price extraction (rag_retriever.py, extract_prices, lines 72-97) -/

/-- Digit characters to the number they denote, most significant first. -/
def charsToNat (cs : List Char) : Nat :=
  cs.foldl (fun a c => a * 10 + (c.toNat - 48)) 0

/-- Test `leadsWith n h`: the text `h` starts with `n` (list-of-character
version of `str.startswith`, needle first). -/
def leadsWith : List Char → List Char → Bool
  | [], _ => true
  | _ :: _, [] => false
  | a :: as, b :: bs => a = b && leadsWith as bs

/-- Consume an optional `(?:\.\d+)?` group: a dot followed by at least one
digit (taken maximally); otherwise consume nothing. -/
def consumeDecimal (cs : List Char) : List Char :=
  match cs with
  | '.' :: r =>
    if (r.takeWhile isDigitB).isEmpty then '.' :: r
    else r.dropWhile isDigitB
  | r => r

/-- One match attempt of `\$\s*([\d,]+)(?:\.\d+)?` at the current position:
returns the captured `[\d,]+` group and the rest of the input after the
whole match. -/
def matchDollarPrice : List Char → Option (List Char × List Char)
  | '$' :: cs =>
    let afterWs := cs.dropWhile isPySpace
    let g := afterWs.takeWhile isPriceChar
    let r := afterWs.dropWhile isPriceChar
    if g.isEmpty then none else some (g, consumeDecimal r)
  | _ => none

/-- One match attempt of `([\d,]+)(?:\.\d+)?\s*LIT` at the current position
(`LIT` is the literal `dollars` or `USD`).  The `[\d,]+` group is maximal
(shortening it would place a digit or comma where `\s*LIT` must match, so
the regex engine's backtracking never helps); the optional decimal group is
tried greedily first and dropped if the literal then fails. -/
def matchSuffixPrice (lit : List Char) (cs : List Char) : Option (List Char × List Char) :=
  let g := cs.takeWhile isPriceChar
  let r := cs.dropWhile isPriceChar
  if g.isEmpty then none
  else
    let tryFrom : List Char → Option (List Char × List Char) := fun r' =>
      let afterWs := r'.dropWhile isPySpace
      if leadsWith lit afterWs then some (g, afterWs.drop lit.length) else none
    match r with
    | '.' :: r2 =>
      if (r2.takeWhile isDigitB).isEmpty then tryFrom ('.' :: r2)
      else
        match tryFrom (r2.dropWhile isDigitB) with
        | some x => some x
        | none => tryFrom ('.' :: r2)
    | _ => tryFrom r

/-- Embedding of `re.findall` for one price pattern: scan left to right, collect the
captured group of each non-overlapping match, resume after each match. -/
def findallAux (m : List Char → Option (List Char × List Char)) :
    Nat → List Char → List (List Char)
  | 0, _ => []
  | _ + 1, [] => []
  | fuel + 1, c :: cs =>
    match m (c :: cs) with
    | some (g, rest) => g :: findallAux m fuel rest
    | none => findallAux m fuel cs

/-- Embedding of `match.replace(',', '')` followed by `float(...)`: commas are stripped
and an all-comma group fails to parse (the `except: continue`). -/
def parsePrice (g : List Char) : Option Rat :=
  let digits := g.filter isDigitB
  if digits.isEmpty then none else some ((charsToNat digits : Nat) : Rat)

/-- All prices one pattern contributes: its matches, parsed, restricted to
`1000 <= price <= 1000000`. -/
def patternPrices (m : List Char → Option (List Char × List Char)) (t : String) : List Rat :=
  (((findallAux m t.data.length t.data).filterMap parsePrice).filter
    fun p => decide (1000 ≤ p) && decide (p ≤ 1000000))

/-- Embedding of `extract_prices` (rag_retriever.py lines 72-97): the three price
patterns are scanned one after the other over the whole text and their
results appended, in pattern order. -/
def extract_prices (t : String) : List Rat :=
  [matchDollarPrice,
   matchSuffixPrice "dollars".data,
   matchSuffixPrice "USD".data].foldl (fun acc m => acc ++ patternPrices m t) []

/-- The price list as claim C8 words it: the matches of the three patterns
listed in their order of appearance in the passage text (at each position
the three patterns are tried in order, first match wins, scanning resumes
after a match).  Spec-side definition, for comparison with
`extract_prices`. -/
def textOrderMatches : Nat → List Char → List (List Char)
  | 0, _ => []
  | _ + 1, [] => []
  | fuel + 1, c :: cs =>
    match matchDollarPrice (c :: cs) with
    | some (g, rest) => g :: textOrderMatches fuel rest
    | none =>
      match matchSuffixPrice "dollars".data (c :: cs) with
      | some (g, rest) => g :: textOrderMatches fuel rest
      | none =>
        match matchSuffixPrice "USD".data (c :: cs) with
        | some (g, rest) => g :: textOrderMatches fuel rest
        | none => textOrderMatches fuel cs

/-- Prices in text order, as claim C8 describes `extract_prices`. -/
def extractPricesTextOrder (t : String) : List Rat :=
  ((textOrderMatches t.data.length t.data).filterMap parsePrice).filter
    fun p => decide (1000 ≤ p) && decide (p ≤ 1000000)

/-! ### Date extraction (rag_retriever.py, extract_date, lines 44-70) -/

/-- Match `(\d{1,2})` immediately followed by the separator `sep`: the digit run at
the current position must have length 1 or 2 (a longer run cannot match, as
backtracking would place a digit where `sep` is required) and the next
character must be `sep`.  Returns the numeric value and the rest after the
separator. -/
def digits12Sep (sep : Char) (cs : List Char) : Option (Nat × List Char) :=
  let run := cs.takeWhile isDigitB
  let rest := cs.dropWhile isDigitB
  if run.length = 1 || run.length = 2 then
    match rest with
    | c :: rest2 => if c = sep then some (charsToNat run, rest2) else none
    | [] => none
  else none

/-- A trailing `(\d{1,2})` with nothing after it: greedily take up to two
digits of the run at the current position (at least one). -/
def digits12Free (cs : List Char) : Option Nat :=
  let run := cs.takeWhile isDigitB
  if run.isEmpty then none else some (charsToNat (run.take 2))

/-- Match `(\d{4})`: exactly four digit characters, returned verbatim. -/
def digits4 (cs : List Char) : Option (List Char × List Char) :=
  match cs with
  | a :: b :: c :: d :: r =>
    if isDigitB a && isDigitB b && isDigitB c && isDigitB d then some ([a, b, c, d], r)
    else none
  | _ => none

/-- The table used to print a field with `f"{x:02d}"` for `x ≤ 99`. -/
def digitChar : Nat → Char
  | 0 => '0'
  | 1 => '1'
  | 2 => '2'
  | 3 => '3'
  | 4 => '4'
  | 5 => '5'
  | 6 => '6'
  | 7 => '7'
  | 8 => '8'
  | _ => '9'

/-- Format `f"{n:02d}"` for `n ≤ 99`: tens digit then units digit. -/
def pad2 (n : Nat) : List Char := [digitChar (n / 10), digitChar (n % 10)]

/-- One match attempt of `(\d{1,2})sep(\d{1,2})sep(\d{4})` at the current
position; yields the two small fields and the year's four characters. -/
def matchNumNumYear (sep : Char) (cs : List Char) : Option (Nat × Nat × List Char) :=
  match digits12Sep sep cs with
  | none => none
  | some (a, r1) =>
    match digits12Sep sep r1 with
    | none => none
    | some (b, r2) =>
      match digits4 r2 with
      | none => none
      | some (y, _) => some (a, b, y)

/-- One match attempt of `(\d{4})/(\d{1,2})/(\d{1,2})` at the current
position. -/
def matchYearNumNum (cs : List Char) : Option (List Char × Nat × Nat) :=
  match digits4 cs with
  | none => none
  | some (y, r0) =>
    match r0 with
    | c :: r1 =>
      if c = '/' then
        match digits12Sep '/' r1 with
        | none => none
        | some (m, r2) =>
          match digits12Free r2 with
          | none => none
          | some d => some (y, m, d)
      else none
    | [] => none

/-- The month-name alternation of the textual date pattern, with the
1-based month number produced by `.index(...) + 1`. -/
def monthsList : List (Nat × List Char) :=
  [(1, "January".data), (2, "February".data), (3, "March".data), (4, "April".data),
   (5, "May".data), (6, "June".data), (7, "July".data), (8, "August".data),
   (9, "September".data), (10, "October".data), (11, "November".data),
   (12, "December".data)]

/-- One match attempt of
`(January|...|December)\s+(\d{1,2}),\s+(\d{4})` at the current position. -/
def matchTextualDate (cs : List Char) : Option (Nat × Nat × List Char) :=
  match monthsList.find? (fun p => leadsWith p.2 cs) with
  | none => none
  | some (mi, mname) =>
    let r0 := cs.drop mname.length
    let ws1 := r0.takeWhile isPySpace
    if ws1.isEmpty then none
    else
      match digits12Sep ',' (r0.dropWhile isPySpace) with
      | none => none
      | some (d, r1) =>
        let ws2 := r1.takeWhile isPySpace
        if ws2.isEmpty then none
        else
          match digits4 (r1.dropWhile isPySpace) with
          | none => none
          | some (y, _) => some (mi, d, y)

/-- Embedding of `re.search`: try the match function at each position, left to right. -/
def searchPos (m : List Char → Option α) : Nat → List Char → Option α
  | 0, _ => none
  | fuel + 1, cs =>
    match m cs with
    | some r => some r
    | none =>
      match cs with
      | [] => none
      | _ :: cs2 => searchPos m fuel cs2

/-- Formatter of patterns 1 and 2, `f"{g3}-{int(g1):02d}-{int(g2):02d}"`:
first field is the month, second the day. -/
def fmtMDY (a b : Nat) (y : List Char) : List Char :=
  y ++ '-' :: pad2 a ++ '-' :: pad2 b

/-- Formatter of pattern 4, `f"{g3}-{int(g2):02d}-{int(g1):02d}"`: the two
small fields swapped (day first in the text). -/
def fmtDMY (a b : Nat) (y : List Char) : List Char :=
  y ++ '-' :: pad2 b ++ '-' :: pad2 a

/-- Formatter of pattern 3, `f"{g1}-{int(g2):02d}-{int(g3):02d}"`. -/
def fmtYMD (y : List Char) (m d : Nat) : List Char :=
  y ++ '-' :: pad2 m ++ '-' :: pad2 d

/-- Embedding of `extract_date` (rag_retriever.py lines 44-70): the five patterns are
tried in order over the whole text; the first one that matches anywhere
determines the result.  The formatter lambdas of the source never raise
(they only index a fixed list and format digit fields), so the
`try/except: continue` around them never skips a matched pattern. -/
def extract_date (t : String) : Option String :=
  let cs := t.data
  let fuel := cs.length + 1
  match searchPos (matchNumNumYear '/') fuel cs with
  | some (a, b, y) => some (String.mk (fmtMDY a b y))
  | none =>
    match searchPos (matchNumNumYear '-') fuel cs with
    | some (a, b, y) => some (String.mk (fmtMDY a b y))
    | none =>
      match searchPos matchYearNumNum fuel cs with
      | some (y, m, d) => some (String.mk (fmtYMD y m d))
      | none =>
        match searchPos (matchNumNumYear '/') fuel cs with
        | some (a, b, y) => some (String.mk (fmtDMY a b y))
        | none =>
          match searchPos matchTextualDate fuel cs with
          | some (mi, d, y) => some (String.mk (fmtYMD y mi d))
          | none => none

/-- The caller of `extract_date` (`search_with_rag` lines 268-272): when no
date is extracted, the record's date defaults to the 30-days-ago string. -/
def extractedDateOr (t : String) (thirtyDaysAgo : String) : String :=
  (extract_date t).getD thirtyDaysAgo

/-- The `YYYY-MM-DD` digit shape: ten characters, digits everywhere except the
two dashes.  This is the shape every `extract_date` result has. -/
def isoShapeB (r : String) : Bool :=
  match r.data with
  | [y1, y2, y3, y4, s1, m1, m2, s2, d1, d2] =>
    isDigitB y1 && isDigitB y2 && isDigitB y3 && isDigitB y4 &&
    s1 = '-' && isDigitB m1 && isDigitB m2 && s2 = '-' &&
    isDigitB d1 && isDigitB d2
  | _ => false

/-- Calendar validity of a `YYYY-MM-DD` string, as claim C9 words it
("a valid calendar date"): month in 1..12 and day within the month, with
Gregorian leap years.  Spec-side definition. -/
def specValidISODate (r : String) : Bool :=
  match r.data with
  | [y1, y2, y3, y4, s1, m1, m2, s2, d1, d2] =>
    let y := charsToNat [y1, y2, y3, y4]
    let m := charsToNat [m1, m2]
    let d := charsToNat [d1, d2]
    let leap := (y % 4 = 0 && y % 100 ≠ 0) || y % 400 = 0
    let dim : Nat :=
      if m = 2 then (if leap then 29 else 28)
      else if m = 4 || m = 6 || m = 9 || m = 11 then 30
      else 31
    isDigitB y1 && isDigitB y2 && isDigitB y3 && isDigitB y4 &&
    s1 = '-' && isDigitB m1 && isDigitB m2 && s2 = '-' &&
    isDigitB d1 && isDigitB d2 &&
    decide (1 ≤ m) && decide (m ≤ 12) && decide (1 ≤ d) && decide (d ≤ dim)
  | _ => false

/-! ### Brand and model extraction
(rag_retriever.py, extract_equipment_brand_and_model, lines 99-184) -/

/-- Python `needle in hay` on strings. -/
def containsSub (needle hay : List Char) : Bool :=
  hay.tails.any (fun t => leadsWith needle t)

/-- Python `str.upper()` (ASCII, which covers the roster). -/
def upperL (cs : List Char) : List Char := cs.map Char.toUpper

/-- The brand roster, in source order. -/
def brandsList : List String :=
  ["John Deere", "JOHN DEERE",
   "Case IH", "CASE IH", "CASE", "Case",
   "New Holland", "NEW HOLLAND",
   "Kubota", "KUBOTA",
   "Massey Ferguson", "MASSEY FERGUSON",
   "AGCO", "Fendt", "FENDT",
   "Claas", "CLAAS",
   "DEUTZ-FAHR", "Deutz-Fahr",
   "Caterpillar", "CAT"]

/-- The hint loop (lines 119-124): the first roster brand that matches the
hint case-insensitively as a substring in either direction.  An empty hint
is falsy in Python and skips the loop. -/
def detectFromHint (hint : String) : String :=
  if hint = "" then "Unknown"
  else
    match brandsList.find? (fun b =>
        containsSub (upperL b.data) (upperL hint.data) ||
        containsSub (upperL hint.data) (upperL b.data)) with
    | some b => b
    | none => "Unknown"

/-- Brand detection (lines 117-131): the hint wins when it matches a roster
entry; otherwise the first roster brand occurring verbatim in the text. -/
def detectBrand (text : String) (hint : Option String) : String :=
  let fromHint :=
    match hint with
    | some h => detectFromHint h
    | none => "Unknown"
  if fromHint = "Unknown" then
    match brandsList.find? (fun b => containsSub b.data text.data) with
    | some b => b
    | none => "Unknown"
  else fromHint

/-- Brand normalization (lines 133-143). -/
def normalizeBrand (b : String) : String :=
  let u := upperL b.data
  if containsSub "JOHN DEERE".data u then "John Deere"
  else if containsSub "CASE".data u then "Case"
  else if containsSub "NEW HOLLAND".data u then "New Holland"
  else if containsSub "KUBOTA".data u then "Kubota"
  else if containsSub "MASSEY".data u then "Massey Ferguson"
  else b

/-- One match attempt of `(\d+[A-Z]+R?)` (the greedy `[A-Z]+` also swallows
the trailing `R`, so the group is the digit run followed by the capital
run). -/
def isUpperAZ (c : Char) : Bool := 65 ≤ c.toNat && c.toNat ≤ 90

/-- Match `\d+[A-Z]+` at the current position. -/
def matchDigitsCaps (cs : List Char) : Option (List Char) :=
  let ds := cs.takeWhile isDigitB
  let r := cs.dropWhile isDigitB
  let us := r.takeWhile isUpperAZ
  if ds.isEmpty || us.isEmpty then none else some (ds ++ us)

/-- Match `[A-Z]\d+[A-Z]?` at the current position. -/
def matchCapDigitsCap (cs : List Char) : Option (List Char) :=
  match cs with
  | c :: r =>
    if isUpperAZ c then
      let ds := r.takeWhile isDigitB
      let r2 := r.dropWhile isDigitB
      if ds.isEmpty then none
      else
        match r2 with
        | u :: _ => if isUpperAZ u then some (c :: ds ++ [u]) else some (c :: ds)
        | [] => some (c :: ds)
    else none
  | [] => none

/-- Match `[A-Z]+-\d+` at the current position. -/
def matchCapsDashDigits (cs : List Char) : Option (List Char) :=
  let us := cs.takeWhile isUpperAZ
  let r := cs.dropWhile isUpperAZ
  if us.isEmpty then none
  else
    match r with
    | '-' :: r2 =>
      let ds := r2.takeWhile isDigitB
      if ds.isEmpty then none else some (us ++ '-' :: ds)
    | _ => none

/-- Match `T\d+\.\d+` at the current position. -/
def matchTDotModel (cs : List Char) : Option (List Char) :=
  match cs with
  | 'T' :: r =>
    let ds := r.takeWhile isDigitB
    let r2 := r.dropWhile isDigitB
    if ds.isEmpty then none
    else
      match r2 with
      | '.' :: r3 =>
        let ds2 := r3.takeWhile isDigitB
        if ds2.isEmpty then none else some ('T' :: ds ++ '.' :: ds2)
      | _ => none
  | _ => none

/-- Match `T\d+` at the current position. -/
def matchTModel (cs : List Char) : Option (List Char) :=
  match cs with
  | 'T' :: r =>
    let ds := r.takeWhile isDigitB
    if ds.isEmpty then none else some ('T' :: ds)
  | _ => none

/-- Embedding of `re.search` of a model pattern over the text. -/
def searchModel (m : List Char → Option (List Char)) (text : String) : Option (List Char) :=
  searchPos m (text.data.length + 1) text.data

/-- Model extraction (lines 145-184): the brand-specific pattern lists are
tried only for the three brands that have one; every other normalized brand
keeps `"Unknown Model"`. -/
def modelFor (brand : String) (text : String) : String :=
  if containsSub "John Deere".data brand.data then
    match searchModel matchDigitsCaps text with
    | some g => String.mk g
    | none =>
      match searchModel matchCapDigitsCap text with
      | some g => String.mk g
      | none => "Unknown Model"
  else if containsSub "Case".data brand.data then
    match searchModel matchDigitsCaps text with
    | some g => String.mk g
    | none =>
      match searchModel matchCapsDashDigits text with
      | some g => String.mk g
      | none => "Unknown Model"
  else if containsSub "New Holland".data brand.data then
    match searchModel matchTDotModel text with
    | some g => String.mk g
    | none =>
      match searchModel matchTModel text with
      | some g => String.mk g
      | none => "Unknown Model"
  else "Unknown Model"

/-- Embedding of `extract_equipment_brand_and_model` (lines 99-184). -/
def extract_equipment_brand_and_model (text : String) (hint : Option String) :
    String × String :=
  let b := normalizeBrand (detectBrand text hint)
  (b, modelFor b text)

/-! ### Claims about the valuator (C1, C2, C3) -/

/-- C1, counterexample.  The claim says that with zero surviving sale
records the valuation entry point fails with `InsufficientDataError` and in
particular never returns a zero fair-market value.  The code's offline
valuation path does the opposite: on an empty comp list it returns a normal
result dict carrying `fmv = 0.0` and confidence `low` (and the error
fallback of `acall` likewise returns `fmv: 0` instead of raising). -/
theorem valuator_empty_returns_zero_fmv :
    dummyValuation [] =
      { fmv := 0, confidence := "low", adjAge := 0, adjUsage := 0,
        adjCondition := 0, top3 := [],
        explanation := "Dummy valuation using sample data" } := rfl

/-- C1, amended.  When zero sale records survive, the valuator does not
fail: it returns a result with `fmv = 0` and confidence `"low"` (a silent
zero, exactly what the spec says must never happen). -/
theorem valuator_no_failure_on_empty (comps : List Comp) (h : comps = []) :
    dummyValuation comps =
      { fmv := 0, confidence := "low", adjAge := 0, adjUsage := 0,
        adjCondition := 0, top3 := [],
        explanation := "Dummy valuation using sample data" } := by
  subst h; rfl

/-- Witness for `valuator_no_failure_on_empty` at the empty list. -/
theorem valuator_no_failure_on_empty_w :
    ([] : List Comp) = [] ∧
    dummyValuation [] =
      { fmv := 0, confidence := "low", adjAge := 0, adjUsage := 0,
        adjCondition := 0, top3 := [],
        explanation := "Dummy valuation using sample data" } :=
  ⟨rfl, valuator_no_failure_on_empty [] rfl⟩

/-- C2, counterexample.  Five comps all priced 2000: the code labels the
result `high` (its dummy path uses thresholds 5/3 and ignores dispersion),
while the claimed rule (`high` iff size ≥ 25 and relative stdev < 0.12,
`medium` iff size ≥ 10, else `low`) labels the same sample `low`. -/
theorem confidence_five_comps_counterexample :
    (dummyValuation [⟨2000⟩, ⟨2000⟩, ⟨2000⟩, ⟨2000⟩, ⟨2000⟩]).confidence = "high" ∧
    specConfidenceLabel [2000, 2000, 2000, 2000, 2000] = "low" ∧
    ([⟨2000⟩, ⟨2000⟩, ⟨2000⟩, ⟨2000⟩, ⟨2000⟩] : List Comp).length = 5 := by
  refine ⟨rfl, ?_, rfl⟩
  decide

/-- C2, amended.  The executable valuation labels confidence purely by comp
count: `high` iff at least 5 comps, `medium` iff 3 or 4, `low` otherwise;
price dispersion plays no role (the 25-sample / 0.12 relative-stdev rule
exists only as prompt text for the external model). -/
theorem dummy_confidence_by_count (comps : List Comp) :
    ((dummyValuation comps).confidence = "high" ↔ 5 ≤ comps.length) ∧
    ((dummyValuation comps).confidence = "medium" ↔
      3 ≤ comps.length ∧ comps.length < 5) ∧
    ((dummyValuation comps).confidence = "low" ↔ comps.length < 3) := by
  simp only [dummyValuation, List.length_map, ge_iff_le]
  refine ⟨?_, ?_, ?_⟩ <;> split_ifs with h1 h2 <;> simp_all
  all_goals omega

/-- Witness for `dummy_confidence_by_count`: a concrete five-comp sample is
labelled `high`. -/
theorem dummy_confidence_by_count_w :
    (dummyValuation [⟨1⟩, ⟨2⟩, ⟨3⟩, ⟨4⟩, ⟨5⟩]).confidence = "high" :=
  (dummy_confidence_by_count [⟨1⟩, ⟨2⟩, ⟨3⟩, ⟨4⟩, ⟨5⟩]).1.mpr (by decide)

/-- C3.  The claimed (and self-documented: `schemas.ValuationResponse`
describes `fair_market_value` as "USD rounded to nearest 100", and the
valuator prompt demands rounding to the nearest 100) invariant fails in the
code's executable path: a single comp priced 1050 yields `fmv = 1050`
(`round(mean, 2)` rounds to cents, not to hundreds), and 1050/100 is not an
integer (its reduced denominator is 2). -/
theorem fmv_not_multiple_of_100 :
    (dummyValuation [{ price := 1050 }]).fmv = 1050 ∧
    ∀ k : Int, (dummyValuation [{ price := 1050 }]).fmv ≠ 100 * (k : Rat) := by
  have hproj : ∀ comps : List Comp, (dummyValuation comps).fmv =
      (if (comps.map fun c => c.price).isEmpty then (0 : Rat)
       else round2 ((comps.map fun c => c.price).sum /
         ((comps.map fun c => c.price).length : Rat))) := fun _ => rfl
  have hfmv : (dummyValuation [{ price := 1050 }]).fmv = 1050 := by
    rw [hproj]
    simp only [List.map_cons, List.map_nil, List.isEmpty_cons, List.sum_cons,
      List.sum_nil, List.length_cons, List.length_nil]
    norm_num [round2, pyRoundHalfEven]
  refine ⟨hfmv, ?_⟩
  intro k h
  rw [hfmv] at h
  have h2 : (1050 : Int) = 100 * k := by exact_mod_cast h
  omega

/-! ### Claim C4: the recency filter -/

/-- C4.  The recency filter implements exactly the claimed
first-satisfied-wins policy: at least 3 records dated within 90 days ⇒
exactly those; else at least 3 in the two buckets together ⇒ their
concatenation; else the full unfiltered input.  (`recent90`/`recent180`
are the two buckets, with unparseable dates in `recent180`.) -/
theorem recency_filter_first_satisfied (now : Int) (rs : List SaleRec) :
    recencyFilter now rs =
      if 3 ≤ (recent90 now rs).length then recent90 now rs
      else if 3 ≤ (recent90 now rs).length + (recent180 now rs).length then
        recent90 now rs ++ recent180 now rs
      else rs := by
  have hlen : (recent90 now rs ++ recent180 now rs).length
      = (recent90 now rs).length + (recent180 now rs).length :=
    List.length_append _ _
  simp only [recencyFilter]
  by_cases h1 : (recent90 now rs).length < 3
  · rw [if_pos h1]
    by_cases h2 : (recent90 now rs ++ recent180 now rs).length < 3
    · rw [if_pos h2, if_neg (by omega), if_neg (by omega)]
    · rw [if_neg h2, if_neg (by omega), if_pos (by omega)]
  · rw [if_neg h1, if_neg (by omega), if_pos (by omega)]

/-- Witness-style instantiation of `recency_filter_first_satisfied` on a
concrete sample: two in-window records and one stale record fall back to
the full list. -/
theorem recency_filter_first_satisfied_w :
    recencyFilter 1000 [⟨2000, some 950⟩, ⟨2000, some 900⟩, ⟨2000, some 100⟩] =
      [⟨2000, some 950⟩, ⟨2000, some 900⟩, ⟨2000, some 100⟩] := by
  rw [recency_filter_first_satisfied]
  decide

/-! ### Claim C5: the outlier remover -/

/-- C5.  For fewer than 5 records the outlier remover is the identity; for
at least 5 records its output always keeps at least 3 records: it uses the
IQR-filtered list exactly when that list keeps at least 3 records and
returns the unfiltered input otherwise. -/
theorem outlier_remover_keeps_min_sample (rs : List SaleRec) :
    (rs.length < 5 → removeOutliers rs = rs) ∧
    (5 ≤ rs.length →
      3 ≤ (removeOutliers rs).length ∧
      (3 ≤ (iqrFiltered rs).length → removeOutliers rs = iqrFiltered rs) ∧
      ((iqrFiltered rs).length < 3 → removeOutliers rs = rs)) := by
  have hsub : List.Sublist (iqrFiltered rs) rs := by
    unfold iqrFiltered
    exact List.filter_sublist rs
  have hle : (iqrFiltered rs).length ≤ rs.length := hsub.length_le
  constructor
  · intro h
    simp only [removeOutliers]
    rw [if_neg (by omega)]
  · intro h5
    simp only [removeOutliers]
    rw [if_pos h5]
    by_cases hrem : 0 < rs.length - (iqrFiltered rs).length
    · rw [if_pos hrem]
      by_cases h3 : 3 ≤ (iqrFiltered rs).length
      · rw [if_pos h3]
        exact ⟨h3, fun _ => rfl, fun hlt => by omega⟩
      · rw [if_neg h3]
        exact ⟨by omega, fun h3' => absurd h3' h3, fun _ => rfl⟩
    · rw [if_neg hrem]
      have heq : iqrFiltered rs = rs := hsub.eq_of_length (by omega)
      exact ⟨by omega, fun _ => heq.symm, fun _ => rfl⟩

/-- A concrete 5-record sample with one clear outlier. -/
def sampleRecs5 : List SaleRec :=
  [⟨100000, some 0⟩, ⟨100000, some 0⟩, ⟨100000, some 0⟩,
   ⟨101000, some 0⟩, ⟨500000, some 0⟩]

/-- Witness for `outlier_remover_keeps_min_sample`: the concrete 5-record
sample keeps at least 3 records after outlier removal. -/
theorem outlier_remover_keeps_min_sample_w :
    5 ≤ sampleRecs5.length ∧ 3 ≤ (removeOutliers sampleRecs5).length :=
  ⟨by decide, ((outlier_remover_keeps_min_sample sampleRecs5).2 (by decide)).1⟩

/-! ### Claim C6: the sale-record builder's price floor -/

/-- C6.  Every sale record the builder emits for a passage has price at
least 1000, and a passage whose extracted price list is empty or whose mean
price is below 1000 produces no record at all. -/
theorem builder_price_floor (t : String) (d : Option Int) :
    (∀ r, buildRecord (extract_prices t) d = some r → 1000 ≤ r.price) ∧
    ((extract_prices t).isEmpty = true → buildRecord (extract_prices t) d = none) ∧
    ((extract_prices t).isEmpty = false →
      (extract_prices t).sum / ((extract_prices t).length : Rat) < 1000 →
      buildRecord (extract_prices t) d = none) := by
  simp only [buildRecord]
  by_cases he : (extract_prices t).isEmpty
  · rw [if_pos he]
    refine ⟨?_, fun _ => by norm_num, fun hf => absurd he (by simp [hf])⟩
    intro r hr
    rw [if_pos (by norm_num)] at hr
    exact absurd hr (by simp)
  · rw [if_neg he]
    refine ⟨?_, fun ht => absurd ht he, fun _ hlt => by rw [if_pos hlt]⟩
    intro r hr
    by_cases hlt : (extract_prices t).sum / ((extract_prices t).length : Rat) < 1000
    · rw [if_pos hlt] at hr
      exact absurd hr (by simp)
    · rw [if_neg hlt] at hr
      have := Option.some.inj hr
      rw [← this]
      exact le_of_not_lt hlt

/-- Witness for `builder_price_floor`: the passage `"$45000"` yields the
single extracted price 45000, the builder emits a record, and its price is
at least 1000. -/
theorem builder_price_floor_w :
    buildRecord (extract_prices "$45000") none = some { price := 45000, saleDate := none } ∧
    (1000 : Rat) ≤ (SaleRec.mk 45000 none).price := by
  have h1 : extract_prices "$45000" = [45000] := by decide
  have h2 : buildRecord [(45000 : Rat)] none = some { price := 45000, saleDate := none } := by
    simp only [buildRecord, List.isEmpty_cons, List.sum_cons, List.sum_nil,
      List.length_cons, List.length_nil]
    norm_num
  have h3 : buildRecord (extract_prices "$45000") none =
      some { price := 45000, saleDate := none } := by rw [h1]; exact h2
  exact ⟨h3, (builder_price_floor "$45000" none).1 _ h3⟩

/-! ### Claim C10: non-covered brands never get a model -/

/-- The brand-detection step only ever produces a roster entry or
`"Unknown"`. -/
theorem detectBrand_mem_or_unknown (text : String) (hint : Option String) :
    detectBrand text hint ∈ brandsList ∨ detectBrand text hint = "Unknown" := by
  have hscan : ∀ s : String,
      (s ∈ brandsList ∨ s = "Unknown") →
      ((if s = "Unknown" then
          match brandsList.find? (fun b => containsSub b.data text.data) with
          | some b => b
          | none => "Unknown"
        else s) ∈ brandsList ∨
       (if s = "Unknown" then
          match brandsList.find? (fun b => containsSub b.data text.data) with
          | some b => b
          | none => "Unknown"
        else s) = "Unknown") := by
    intro s hs
    by_cases hu : s = "Unknown"
    · rw [if_pos hu]
      cases hfind : brandsList.find? (fun b => containsSub b.data text.data) with
      | none => exact Or.inr rfl
      | some b => exact Or.inl (List.mem_of_find?_eq_some hfind)
    · rw [if_neg hu]
      rcases hs with h | h
      · exact Or.inl h
      · exact absurd h hu
  have hx : (match hint with | some h => detectFromHint h | none => "Unknown") ∈ brandsList ∨
      (match hint with | some h => detectFromHint h | none => "Unknown") = "Unknown" := by
    cases hint with
    | none => exact Or.inr rfl
    | some h =>
      show detectFromHint h ∈ brandsList ∨ detectFromHint h = "Unknown"
      unfold detectFromHint
      split
      · exact Or.inr rfl
      · cases hfind : brandsList.find? (fun b =>
            containsSub (upperL b.data) (upperL h.data) ||
            containsSub (upperL h.data) (upperL b.data)) with
        | none => simp [hfind]
        | some b =>
          simp only [hfind]
          exact Or.inl (List.mem_of_find?_eq_some hfind)
  exact hscan _ hx

/-- After normalization, a detected brand is either one of the three brands
with model patterns or contains none of their names as a substring. -/
theorem normalizeBrand_classify (b0 : String)
    (h : b0 ∈ brandsList ∨ b0 = "Unknown") :
    normalizeBrand b0 ∈ (["John Deere", "Case", "New Holland"] : List String) ∨
    (containsSub "John Deere".data (normalizeBrand b0).data = false ∧
     containsSub "Case".data (normalizeBrand b0).data = false ∧
     containsSub "New Holland".data (normalizeBrand b0).data = false) := by
  rcases h with h | h
  · fin_cases h <;> decide
  · subst h; decide

/-- C10.  Whenever the detected (normalized) brand is not John Deere, Case
or New Holland — e.g. Kubota, Massey Ferguson, AGCO, Fendt, Claas,
Deutz-Fahr, Caterpillar or Unknown — the extracted model is exactly
`"Unknown Model"`: no model pattern is applied for those brands. -/
theorem unknown_brand_gives_unknown_model (text : String) (hint : Option String)
    (h : (extract_equipment_brand_and_model text hint).1 ∉
      (["John Deere", "Case", "New Holland"] : List String)) :
    (extract_equipment_brand_and_model text hint).2 = "Unknown Model" := by
  have hb := detectBrand_mem_or_unknown text hint
  have hcl := normalizeBrand_classify _ hb
  have h1 : (extract_equipment_brand_and_model text hint).1 =
      normalizeBrand (detectBrand text hint) := rfl
  have h2 : (extract_equipment_brand_and_model text hint).2 =
      modelFor (normalizeBrand (detectBrand text hint)) text := rfl
  rw [h1] at h
  rcases hcl with hmem | ⟨hc1, hc2, hc3⟩
  · exact absurd hmem h
  · rw [h2]
    unfold modelFor
    rw [if_neg (by simp [hc1]), if_neg (by simp [hc2]), if_neg (by simp [hc3])]

/-- Witness for `unknown_brand_gives_unknown_model`: a Kubota passage. -/
theorem unknown_brand_gives_unknown_model_w :
    ((extract_equipment_brand_and_model "Kubota L3901 tractor" none).1 ∉
      (["John Deere", "Case", "New Holland"] : List String)) ∧
    (extract_equipment_brand_and_model "Kubota L3901 tractor" none).2 = "Unknown Model" :=
  ⟨by decide, unknown_brand_gives_unknown_model "Kubota L3901 tractor" none (by decide)⟩

/-! ### Claim C8: order and range of extracted prices -/

/-- Every price a single pattern contributes lies in [1000, 1000000]. -/
theorem patternPrices_bounds (m : List Char → Option (List Char × List Char))
    (t : String) : ∀ p ∈ patternPrices m t, 1000 ≤ p ∧ p ≤ 1000000 := by
  intro p hp
  unfold patternPrices at hp
  have h := List.mem_filter.mp hp
  have hb := h.2
  rw [Bool.and_eq_true] at hb
  exact ⟨of_decide_eq_true hb.1, of_decide_eq_true hb.2⟩

/-- C8, counterexample.  The claim says prices are listed in their order
of appearance in the passage text.  In `"5000 dollars and $2000"` the
`dollars` amount appears first, yet the code returns `[2000, 5000]` (all
`$`-pattern matches first, then all `dollars` matches); the text-order
reading `extractPricesTextOrder` returns `[5000, 2000]`. -/
theorem extract_prices_order_counterexample :
    extract_prices "5000 dollars and $2000" = [2000, 5000] ∧
    extractPricesTextOrder "5000 dollars and $2000" = [5000, 2000] ∧
    ([2000, 5000] : List Rat) ≠ [5000, 2000] := by
  refine ⟨by decide, by decide, by decide⟩

/-- C8, amended.  `extract_prices` returns exactly the valid matches of the
three patterns grouped by pattern — all `$`-prefixed matches first, then
the `dollars`-suffixed ones, then the `USD`-suffixed ones, each group in
its order of appearance and with duplicates kept — and every returned value
lies in [1000, 1000000]. -/
theorem extract_prices_grouped_and_bounded (t : String) :
    extract_prices t =
      patternPrices matchDollarPrice t ++
      patternPrices (matchSuffixPrice "dollars".data) t ++
      patternPrices (matchSuffixPrice "USD".data) t ∧
    ∀ p ∈ extract_prices t, 1000 ≤ p ∧ p ≤ 1000000 := by
  have hfold : extract_prices t =
      patternPrices matchDollarPrice t ++
      patternPrices (matchSuffixPrice "dollars".data) t ++
      patternPrices (matchSuffixPrice "USD".data) t := by
    simp only [extract_prices, List.foldl_cons, List.foldl_nil, List.nil_append]
  refine ⟨hfold, ?_⟩
  intro p hp
  rw [hfold] at hp
  rcases List.mem_append.mp hp with hp2 | hp2
  · rcases List.mem_append.mp hp2 with hp3 | hp3
    · exact patternPrices_bounds _ _ p hp3
    · exact patternPrices_bounds _ _ p hp3
  · exact patternPrices_bounds _ _ p hp2

/-- Witness for `extract_prices_grouped_and_bounded`: 2000 is extracted
from a concrete passage and is within the bounds. -/
theorem extract_prices_grouped_and_bounded_w :
    (2000 : Rat) ∈ extract_prices "5000 dollars and $2000" ∧
    (1000 ≤ (2000 : Rat) ∧ (2000 : Rat) ≤ 1000000) :=
  ⟨by decide,
   (extract_prices_grouped_and_bounded "5000 dollars and $2000").2 2000 (by decide)⟩

/-! ### Claim C9: date extraction -/

/-- The `02d`-formatted digit table only produces digit characters. -/
theorem digitChar_isDigit (k : Nat) : isDigitB (digitChar k) = true := by
  rcases k with _ | _ | _ | _ | _ | _ | _ | _ | _ | _ | k <;> rfl

/-- A captured `(\d{4})` group: exactly four digit characters. -/
def fourDigits (y : List Char) : Prop :=
  ∃ c1 c2 c3 c4, y = [c1, c2, c3, c4] ∧
    isDigitB c1 = true ∧ isDigitB c2 = true ∧ isDigitB c3 = true ∧ isDigitB c4 = true

/-- The `digits4` matcher captures exactly four digit characters. -/
theorem digits4_shape {cs : List Char} {y r : List Char}
    (h : digits4 cs = some (y, r)) : fourDigits y := by
  unfold digits4 at h
  split at h
  · rename_i a b c d rest
    split at h
    · rename_i hds
      simp only [Bool.and_eq_true] at hds
      obtain ⟨⟨⟨ha, hb⟩, hc⟩, hd⟩ := hds
      have hinj := Option.some.inj h
      simp only [Prod.mk.injEq] at hinj
      obtain ⟨hy, _⟩ := hinj
      exact ⟨a, b, c, d, hy.symm, ha, hb, hc, hd⟩
    · exact absurd h (by simp)
  · exact absurd h (by simp)

/-- Equation lemma: a search with no fuel fails. -/
theorem searchPos_zero {α : Type} (m : List Char → Option α) (cs : List Char) :
    searchPos m 0 cs = none := rfl

/-- Equation lemma: one search step tries the matcher here, then moves one
character right. -/
theorem searchPos_succ {α : Type} (m : List Char → Option α) (f : Nat) (cs : List Char) :
    searchPos m (f + 1) cs =
      match m cs with
      | some r => some r
      | none =>
        match cs with
        | [] => none
        | _ :: cs2 => searchPos m f cs2 := rfl

/-- A successful positional search comes from a successful match at some
suffix. -/
theorem searchPos_some {α : Type} (m : List Char → Option α) (fuel : Nat) :
    ∀ (cs : List Char) (r : α),
      searchPos m fuel cs = some r → ∃ cs', m cs' = some r := by
  induction fuel with
  | zero =>
    intro cs r h
    rw [searchPos_zero] at h
    exact absurd h (by simp)
  | succ f ih =>
    intro cs r h
    rw [searchPos_succ] at h
    split at h
    · rename_i heq
      exact ⟨cs, by rw [heq, h]⟩
    · split at h
      · exact absurd h (by simp)
      · exact ih _ _ h

/-- The year group of a `(\d{1,2})sep(\d{1,2})sep(\d{4})` match consists of
four digit characters. -/
theorem matchNumNumYear_shape {sep : Char} {cs : List Char} {a b : Nat}
    {y : List Char} (h : matchNumNumYear sep cs = some (a, b, y)) :
    fourDigits y := by
  unfold matchNumNumYear at h
  split at h
  · exact absurd h (by simp)
  · split at h
    · exact absurd h (by simp)
    · split at h
      · exact absurd h (by simp)
      · rename_i heq
        have hinj := Option.some.inj h
        simp only [Prod.mk.injEq] at hinj
        obtain ⟨_, _, hy⟩ := hinj
        exact hy ▸ digits4_shape heq

/-- The year group of a `(\d{4})/(\d{1,2})/(\d{1,2})` match consists of
four digit characters. -/
theorem matchYearNumNum_shape {cs : List Char} {y : List Char} {m d : Nat}
    (h : matchYearNumNum cs = some (y, m, d)) : fourDigits y := by
  unfold matchYearNumNum at h
  split at h
  · exact absurd h (by simp)
  · rename_i heq
    split at h
    · split at h
      · split at h
        · exact absurd h (by simp)
        · split at h
          · exact absurd h (by simp)
          · have hinj := Option.some.inj h
            simp only [Prod.mk.injEq] at hinj
            obtain ⟨hy, _⟩ := hinj
            exact hy ▸ digits4_shape heq
      · exact absurd h (by simp)
    · exact absurd h (by simp)

/-- The year group of a textual-date match consists of four digit
characters. -/
theorem matchTextualDate_shape {cs : List Char} {mi d : Nat} {y : List Char}
    (h : matchTextualDate cs = some (mi, d, y)) : fourDigits y := by
  unfold matchTextualDate at h
  split at h
  · exact absurd h (by simp)
  · simp only [] at h
    split at h
    · exact absurd h (by simp)
    · split at h
      · exact absurd h (by simp)
      · split at h
        · exact absurd h (by simp)
        · split at h
          · exact absurd h (by simp)
          · rename_i heq
            have hinj := Option.some.inj h
            simp only [Prod.mk.injEq] at hinj
            obtain ⟨_, _, hy⟩ := hinj
            exact hy ▸ digits4_shape heq

/-- Every string of the form `yyyy-XX-XX` built from a four-digit year and
two `02d`-formatted fields has the ISO digit shape. -/
theorem isoShapeB_mk (a b : Nat) {y : List Char} (hy : fourDigits y) :
    isoShapeB (String.mk (y ++ '-' :: pad2 a ++ '-' :: pad2 b)) = true := by
  obtain ⟨c1, c2, c3, c4, rfl, h1, h2, h3, h4⟩ := hy
  simp only [pad2, List.cons_append, List.nil_append, isoShapeB]
  simp [h1, h2, h3, h4, digitChar_isDigit]

/-- C9, amended.  Every result of `extract_date` has the `YYYY-MM-DD`
digit shape, but the formatters perform no calendar validation (the
`try/except` never fires because the formatters are total), so results
such as month 13 or day 45 are possible; when no pattern matches, the
extractor returns nothing and the caller substitutes the supplied
30-day-ago default. -/
theorem extract_date_iso_shape (t : String) (dflt : String) :
    (∀ r, extract_date t = some r → isoShapeB r = true) ∧
    (extract_date t = none → extractedDateOr t dflt = dflt) := by
  constructor
  · intro r h
    unfold extract_date at h
    simp only [] at h
    split at h
    · rename_i hs
      rw [← Option.some.inj h]
      obtain ⟨cs', hm⟩ := searchPos_some _ _ _ _ hs
      exact isoShapeB_mk _ _ (matchNumNumYear_shape hm)
    · split at h
      · rename_i hs
        rw [← Option.some.inj h]
        obtain ⟨cs', hm⟩ := searchPos_some _ _ _ _ hs
        exact isoShapeB_mk _ _ (matchNumNumYear_shape hm)
      · split at h
        · rename_i hs
          rw [← Option.some.inj h]
          obtain ⟨cs', hm⟩ := searchPos_some _ _ _ _ hs
          exact isoShapeB_mk _ _ (matchYearNumNum_shape hm)
        · -- the fourth pattern reuses the first pattern's scrutinee, which
          -- this branch has already rewritten to `none`: its match arm with
          -- a result is unreachable (the day-first duplicate never fires)
          split at h
          · rename_i hs
            exact absurd hs (by simp)
          · split at h
            · rename_i hs
              rw [← Option.some.inj h]
              obtain ⟨cs', hm⟩ := searchPos_some _ _ _ _ hs
              exact isoShapeB_mk _ _ (matchTextualDate_shape hm)
            · exact absurd h (by simp)
  · intro h
    unfold extractedDateOr
    rw [h]
    rfl

/-- Witness for `extract_date_iso_shape`: a concrete passage whose date
extracts, with the ISO digit shape. -/
theorem extract_date_iso_shape_w :
    extract_date "sold 12/31/2023" = some "2023-12-31" ∧
    isoShapeB "2023-12-31" = true :=
  ⟨by decide,
   (extract_date_iso_shape "sold 12/31/2023" "x").1 "2023-12-31" (by decide)⟩

/-- C9, counterexample.  `"sold 13/45/2023"` extracts to `"2023-13-45"`,
which is not a valid calendar date (month 13, day 45), refuting the claim
that every non-None result is a valid calendar date. -/
theorem extract_date_invalid_counterexample :
    extract_date "sold 13/45/2023" = some "2023-13-45" ∧
    specValidISODate "2023-13-45" = false ∧
    isoShapeB "2023-13-45" = true := by
  refine ⟨by decide, by decide, by decide⟩

/-! ### Claim C7: idempotence analysis of the normalizer -/

/-- Equation lemma for the whitespace collapse on a cons cell. -/
theorem collapseWsAux_cons (b : Bool) (c : Char) (cs : List Char) :
    collapseWsAux b (c :: cs) =
      if isPySpace c then
        (if b then collapseWsAux true cs else ' ' :: collapseWsAux true cs)
      else c :: collapseWsAux false cs := rfl

/-- Equation lemma for the whitespace collapse on the empty list. -/
theorem collapseWsAux_nil (b : Bool) : collapseWsAux b [] = [] := rfl

/-- After a space was just consumed, the collapse output never starts with
whitespace. -/
theorem collapse_true_head :
    ∀ (cs : List Char) (c : Char) (cs2 : List Char),
      collapseWsAux true cs = c :: cs2 → isPySpace c = false := by
  intro cs
  induction cs with
  | nil => intro c cs2 h; rw [collapseWsAux_nil] at h; exact absurd h (by simp)
  | cons a as ih =>
    intro c cs2 h
    rw [collapseWsAux_cons] at h
    by_cases ha : isPySpace a
    · rw [if_pos ha, if_pos rfl] at h
      exact ih _ _ h
    · rw [if_neg ha] at h
      obtain ⟨h1, _⟩ := List.cons.inj h
      rw [← h1]
      exact Bool.not_eq_true _ ▸ ha

/-- With a non-space head, both flag values collapse identically. -/
theorem collapse_true_eq_false {c : Char} (hc : isPySpace c = false) (cs : List Char) :
    collapseWsAux true (c :: cs) = collapseWsAux false (c :: cs) := by
  rw [collapseWsAux_cons, collapseWsAux_cons, if_neg (by simp [hc]), if_neg (by simp [hc])]

/-- Well-spaced strings: every whitespace character is a plain space and is
followed by a non-space character. -/
def wsClean : List Char → Prop
  | [] => True
  | [c] => isPySpace c = true → c = ' '
  | c :: c2 :: cs =>
    (isPySpace c = true → c = ' ' ∧ isPySpace c2 = false) ∧ wsClean (c2 :: cs)

/-- Equation lemma: singleton. -/
theorem wsClean_one (c : Char) : wsClean [c] = (isPySpace c = true → c = ' ') := rfl

/-- Equation lemma: two or more characters. -/
theorem wsClean_two (c c2 : Char) (cs : List Char) :
    wsClean (c :: c2 :: cs) =
      ((isPySpace c = true → c = ' ' ∧ isPySpace c2 = false) ∧ wsClean (c2 :: cs)) := rfl

/-- A well-spaced string stays well-spaced after dropping its head. -/
theorem wsClean_tail {c : Char} {cs : List Char} (h : wsClean (c :: cs)) : wsClean cs := by
  cases cs with
  | nil => trivial
  | cons c2 cs2 => exact (wsClean_two c c2 cs2 ▸ h).2

/-- The collapse output is always well-spaced. -/
theorem wsClean_collapse : ∀ (cs : List Char) (b : Bool), wsClean (collapseWsAux b cs) := by
  intro cs
  induction cs with
  | nil => intro b; rw [collapseWsAux_nil]; trivial
  | cons a as ih =>
    intro b
    rw [collapseWsAux_cons]
    by_cases ha : isPySpace a
    · rw [if_pos ha]
      cases b with
      | true => simpa using ih true
      | false =>
        simp only [Bool.false_eq_true, if_false]
        cases hX : collapseWsAux true as with
        | nil => rw [wsClean_one]; intro _; rfl
        | cons c2 xs =>
          rw [wsClean_two]
          refine ⟨fun _ => ⟨rfl, collapse_true_head as c2 xs hX⟩, ?_⟩
          rw [← hX]
          exact ih true
    · rw [if_neg ha]
      cases hX : collapseWsAux false as with
      | nil =>
        rw [wsClean_one]
        intro hsp
        exact absurd hsp (by simp [ha])
      | cons c2 xs =>
        rw [wsClean_two]
        refine ⟨fun hsp => absurd hsp (by simp [ha]), ?_⟩
        rw [← hX]
        exact ih false

/-- A well-spaced string is a fixed point of the whitespace collapse. -/
theorem collapse_fix : ∀ (cs : List Char), wsClean cs → collapseWsAux false cs = cs := by
  intro cs
  induction cs with
  | nil => intro _; rfl
  | cons a as ih =>
    intro h
    rw [collapseWsAux_cons]
    by_cases ha : isPySpace a
    · rw [if_pos ha, if_neg (by simp)]
      have ha' : a = ' ' := by
        cases as with
        | nil => exact (wsClean_one a ▸ h) ha
        | cons c2 as2 => exact ((wsClean_two a c2 as2 ▸ h).1 ha).1
      cases as with
      | nil => rw [collapseWsAux_nil, ha']
      | cons c2 as2 =>
        have hc2 : isPySpace c2 = false := ((wsClean_two a c2 as2 ▸ h).1 ha).2
        rw [collapse_true_eq_false hc2, ih (wsClean_tail h), ha']
    · rw [if_neg ha, ih (wsClean_tail h)]

/-- The `dropWhile` operation preserves well-spacing (its result is a suffix). -/
theorem wsClean_dropWhile (p : Char → Bool) :
    ∀ (cs : List Char), wsClean cs → wsClean (cs.dropWhile p) := by
  intro cs
  induction cs with
  | nil => intro _; trivial
  | cons a as ih =>
    intro h
    rw [List.dropWhile_cons]
    by_cases ha : p a
    · rw [if_pos ha]; exact ih (wsClean_tail h)
    · rw [if_neg ha]; exact h

/-- Well-spacing is closed under taking a list prefix. -/
theorem wsClean_append_left :
    ∀ (l1 l2 : List Char), wsClean (l1 ++ l2) → wsClean l1 := by
  intro l1
  induction l1 with
  | nil => intro _ _; trivial
  | cons a l1' ih =>
    intro l2 h
    cases hl : l1' with
    | nil =>
      rw [wsClean_one]
      intro hsp
      cases l2 with
      | nil =>
        have h' : wsClean [a] := by simpa [hl] using h
        exact (wsClean_one a ▸ h') hsp
      | cons b l2' =>
        have h' : wsClean (a :: b :: l2') := by simpa [hl] using h
        exact ((wsClean_two a b l2' ▸ h').1 hsp).1
    | cons b l1'' =>
      subst hl
      have h' : wsClean (a :: b :: (l1'' ++ l2)) := by simpa using h
      rw [wsClean_two]
      exact ⟨(wsClean_two a b (l1'' ++ l2) ▸ h').1,
        ih l2 ((wsClean_two a b (l1'' ++ l2) ▸ h').2)⟩

/-- What the trailing strip removes: the string splits into the stripped
part and the reversed whitespace suffix. -/
theorem stripBack_append (u : List Char) :
    u = stripBack u ++ (u.reverse.takeWhile isPySpace).reverse := by
  unfold stripBack
  conv_lhs => rw [← List.reverse_reverse u,
    ← List.takeWhile_append_dropWhile (p := isPySpace) (l := u.reverse)]
  rw [List.reverse_append]

/-- The head surviving a `dropWhile` fails the predicate. -/
theorem dropWhile_head_false (p : Char → Bool) :
    ∀ (l : List Char) (c : Char) (cs : List Char),
      l.dropWhile p = c :: cs → p c = false := by
  intro l
  induction l with
  | nil => intro c cs h; exact absurd h (by simp)
  | cons a as ih =>
    intro c cs h
    rw [List.dropWhile_cons] at h
    by_cases ha : p a
    · rw [if_pos ha] at h; exact ih _ _ h
    · rw [if_neg ha] at h
      obtain ⟨h1, _⟩ := List.cons.inj h
      rw [← h1]
      exact Bool.not_eq_true _ ▸ ha

/-- A list whose head fails the predicate is unchanged by `dropWhile`. -/
theorem dropWhile_eq_self (p : Char → Bool) (l : List Char)
    (h : ∀ c cs, l = c :: cs → p c = false) : l.dropWhile p = l := by
  cases l with
  | nil => rfl
  | cons a as =>
    rw [List.dropWhile_cons, if_neg (by simp [h a as rfl])]

/-- A string that neither starts nor ends with whitespace is a fixed point
of `stripChars`. -/
theorem stripChars_fix (u : List Char)
    (hh : ∀ c cs, u = c :: cs → isPySpace c = false)
    (hl : ∀ c, u.getLast? = some c → isPySpace c = false) :
    stripChars u = u := by
  unfold stripChars stripBack
  rw [dropWhile_eq_self _ u hh]
  have : u.reverse.dropWhile isPySpace = u.reverse := by
    apply dropWhile_eq_self
    intro c cs h
    apply hl
    rw [← List.head?_reverse, h]
    rfl
  rw [this, List.reverse_reverse]

/-- The strip output never starts with whitespace. -/
theorem stripChars_head (cs : List Char) :
    ∀ c tl, stripChars cs = c :: tl → isPySpace c = false := by
  intro c tl h
  have hsc : stripBack (cs.dropWhile isPySpace) = c :: tl := h
  have hd := stripBack_append (cs.dropWhile isPySpace)
  rw [hsc, List.cons_append] at hd
  exact dropWhile_head_false _ _ _ _ hd

/-- The strip output never ends with whitespace. -/
theorem stripChars_last (cs : List Char) :
    ∀ c, (stripChars cs).getLast? = some c → isPySpace c = false := by
  intro c h
  unfold stripChars stripBack at h
  rw [List.getLast?_reverse] at h
  cases he : (cs.dropWhile isPySpace).reverse.dropWhile isPySpace with
  | nil => rw [he] at h; exact absurd h (by simp)
  | cons a as =>
    rw [he] at h
    have : a = c := by simpa using h
    rw [← this]
    exact dropWhile_head_false _ _ _ _ he

/-- The strip output is well-spaced whenever its input is. -/
theorem wsClean_stripChars (cs : List Char) (h : wsClean cs) :
    wsClean (stripChars cs) := by
  unfold stripChars
  have h1 : wsClean (cs.dropWhile isPySpace) := wsClean_dropWhile _ _ h
  exact wsClean_append_left _ _ (stripBack_append (cs.dropWhile isPySpace) ▸ h1)

/-- Characters of the collapse output come from the input or are spaces. -/
theorem mem_collapse :
    ∀ (cs : List Char) (b : Bool) (c : Char),
      c ∈ collapseWsAux b cs → c ∈ cs ∨ c = ' ' := by
  intro cs
  induction cs with
  | nil => intro b c h; rw [collapseWsAux_nil] at h; exact absurd h (by simp)
  | cons a as ih =>
    intro b c h
    rw [collapseWsAux_cons] at h
    by_cases ha : isPySpace a
    · rw [if_pos ha] at h
      cases b with
      | true =>
        simp only [if_pos rfl] at h
        rcases ih true c h with h2 | h2
        · exact Or.inl (List.mem_cons_of_mem a h2)
        · exact Or.inr h2
      | false =>
        simp only [Bool.false_eq_true, if_false] at h
        rcases List.mem_cons.mp h with h2 | h2
        · exact Or.inr h2
        · rcases ih true c h2 with h3 | h3
          · exact Or.inl (List.mem_cons_of_mem a h3)
          · exact Or.inr h3
    · rw [if_neg ha] at h
      rcases List.mem_cons.mp h with h2 | h2
      · exact Or.inl (h2 ▸ List.mem_cons_self a as)
      · rcases ih false c h2 with h3 | h3
        · exact Or.inl (List.mem_cons_of_mem a h3)
        · exact Or.inr h3

/-- Characters surviving a `dropWhile` come from the input. -/
theorem mem_dropWhile_imp (p : Char → Bool) :
    ∀ (l : List Char) (c : Char), c ∈ l.dropWhile p → c ∈ l := by
  intro l
  induction l with
  | nil => intro c h; exact absurd h (by simp)
  | cons a as ih =>
    intro c h
    rw [List.dropWhile_cons] at h
    by_cases ha : p a
    · rw [if_pos ha] at h
      exact List.mem_cons_of_mem a (ih c h)
    · rw [if_neg ha] at h
      exact h

/-- Characters of the strip output come from the input. -/
theorem mem_stripChars {cs : List Char} {c : Char} (h : c ∈ stripChars cs) : c ∈ cs := by
  unfold stripChars stripBack at h
  rw [List.mem_reverse] at h
  have h1 := mem_dropWhile_imp _ _ _ h
  rw [List.mem_reverse] at h1
  exact mem_dropWhile_imp _ _ _ h1

/-- Equation lemma: the dollar rewrite with no fuel returns its input. -/
theorem dollarSubFuel_zero (cs : List Char) : dollarSubFuel 0 cs = cs := rfl

/-- Equation lemma: one step of the dollar rewrite. -/
theorem dollarSubFuel_succ_cons (f : Nat) (c : Char) (cs : List Char) :
    dollarSubFuel (f + 1) (c :: cs) =
      if c = '$' then
        match matchDollarBody cs with
        | some (ds, rest) => '$' :: ds ++ dollarSubFuel f rest
        | none => c :: dollarSubFuel f cs
      else c :: dollarSubFuel f cs := rfl

/-- A string without a dollar sign is a fixed point of the dollar rewrite,
for any fuel. -/
theorem dollarSubFuel_id :
    ∀ (f : Nat) (cs : List Char), (∀ c ∈ cs, c ≠ '$') → dollarSubFuel f cs = cs := by
  intro f
  induction f with
  | zero => intro cs _; rfl
  | succ f ih =>
    intro cs h
    cases cs with
    | nil => rfl
    | cons a as =>
      rw [dollarSubFuel_succ_cons, if_neg (h a (List.mem_cons_self a as))]
      rw [ih as (fun c hc => h c (List.mem_cons_of_mem a hc))]

/-- A dollar-free, well-spaced, trimmed string is a fixed point of the
whole normalizer. -/
theorem normalize_fix_of_clean (t : List Char)
    (hnd : ∀ c ∈ t, c ≠ '$') (hwc : wsClean t)
    (hh : ∀ c cs, t = c :: cs → isPySpace c = false)
    (hl : ∀ c, t.getLast? = some c → isPySpace c = false) :
    clean_and_normalize_text (String.mk t) = String.mk t := by
  show String.mk (dollarSub (stripChars (collapseWsAux false t))) = String.mk t
  rw [collapse_fix t hwc, stripChars_fix t hh hl]
  unfold dollarSub
  rw [dollarSubFuel_id _ _ hnd]

/-- C7, counterexample.  Normalization is not idempotent: a dollar amount
with three digit groups is only half-rewritten by the single substitution
pass (`$1,234,567` becomes `$1234,567`), and a second pass rewrites it
further (to `$1234567`). -/
theorem normalize_not_idempotent :
    clean_and_normalize_text "$1,234,567" = "$1234,567" ∧
    clean_and_normalize_text "$1234,567" = "$1234567" ∧
    ("$1234,567" : String) ≠ "$1234567" :=
  ⟨by decide, by decide, by decide⟩

/-- C7, amended.  The whitespace-collapse and trim passes are idempotent,
so the normalizer is idempotent on every passage containing no `$`
character; the comma rewrite breaks idempotence only on `$` amounts with
three or more digit groups (see the counterexample). -/
theorem normalize_idempotent_without_dollar (s : String) (h : '$' ∉ s.data) :
    clean_and_normalize_text (clean_and_normalize_text s) =
      clean_and_normalize_text s := by
  have hndt : ∀ c ∈ stripChars (collapseWsAux false s.data), c ≠ '$' := by
    intro c hc he
    subst he
    rcases mem_collapse _ _ _ (mem_stripChars hc) with h2 | h2
    · exact h h2
    · exact absurd h2 (by decide)
  have h1 : clean_and_normalize_text s =
      String.mk (stripChars (collapseWsAux false s.data)) := by
    show String.mk (dollarSub (stripChars (collapseWsAux false s.data))) = _
    unfold dollarSub
    rw [dollarSubFuel_id _ _ hndt]
  rw [h1]
  apply normalize_fix_of_clean
  · exact hndt
  · exact wsClean_stripChars _ (wsClean_collapse _ _)
  · exact fun c cs hc => stripChars_head _ c cs hc
  · exact fun c hc => stripChars_last _ c hc

/-- Witness for `normalize_idempotent_without_dollar` on a concrete
dollar-free passage. -/
theorem normalize_idempotent_without_dollar_w :
    ('$' ∉ (" John  Deere  8370R " : String).data) ∧
    clean_and_normalize_text (clean_and_normalize_text " John  Deere  8370R ") =
      clean_and_normalize_text " John  Deere  8370R " :=
  ⟨by decide, normalize_idempotent_without_dollar " John  Deere  8370R " (by decide)⟩
